import Mathlib

/- Shallow embedding of the repository's two scripts:
   main.py   - congestion-aware traffic simulation (graph with per-edge
               base_weight / weight / open / congestion_level attributes,
               update_traffic, get_shortest_path, vehicle handlers);
   trial1.py - Dijkstra vs Bellman-Ford single-source distances.
   Directed graphs are edge lists; Python floats are modelled by rationals,
   with WithTop ℚ standing for float values that may be inf.  The networkx
   shortest-path calls are modelled by their documented contract: minimum
   total edge weight over the (finitely many) simple paths, valid for
   non-negative weights, which is the regime this program runs them in. -/

section WeightedDigraph

variable {V : Type} [DecidableEq V]

/-- One weighted directed edge: source node, target node, weight
(⊤ models the float value inf). -/
abbrev WEdge (V : Type) := V × V × WithTop ℚ

/-- Adjacency: some edge of the list goes from u to v. -/
def Adj (E : List (WEdge V)) (u v : V) : Prop := ∃ c, (u, v, c) ∈ E

instance {E : List (WEdge V)} {u v : V} : Decidable (Adj E u v) :=
  decidable_of_iff (∃ e ∈ E, e.1 = u ∧ e.2.1 = v)
    ⟨fun ⟨e, he, h1, h2⟩ => ⟨e.2.2, by
        obtain ⟨a, b, c⟩ := e
        cases h1; cases h2; exact he⟩,
     fun ⟨c, hc⟩ => ⟨(u, v, c), hc, rfl, rfl⟩⟩

/-- Successor nodes of u along edges of E. -/
def succs (E : List (WEdge V)) (u : V) : List V :=
  (E.filter (fun e => decide (e.1 = u))).map (fun e => e.2.1)

/-- Weight of the edge from u to v (first matching edge; ⊤ when absent). -/
def wt (E : List (WEdge V)) (u v : V) : WithTop ℚ :=
  match E.find? (fun e => decide (e.1 = u) && decide (e.2.1 = v)) with
  | some e => e.2.2
  | none => ⊤

/-- Total weight of a node sequence, summing the weights of its
consecutive pairs. -/
def walkCost (E : List (WEdge V)) : List V → WithTop ℚ
  | [] => 0
  | [_] => 0
  | u :: v :: p => wt E u v + walkCost E (v :: p)

/-- The node sequence p is a walk from s to t along edges of E. -/
def isWalk (E : List (WEdge V)) (s t : V) (p : List V) : Prop :=
  p.head? = some s ∧ p.getLast? = some t ∧ p.Chain' (Adj E)

/-- A Decidable instance for Chain' that the kernel can evaluate. -/
instance instDecChainAdj {R : V → V → Prop} [DecidableRel R] :
    ∀ l : List V, Decidable (l.Chain' R)
  | [] => isTrue (by simp)
  | [a] => isTrue (List.chain'_singleton a)
  | a :: b :: l =>
    haveI := instDecChainAdj (R := R) (b :: l)
    decidable_of_iff (R a b ∧ (b :: l).Chain' R) List.chain'_cons.symm

instance {E : List (WEdge V)} {s t : V} {p : List V} :
    Decidable (isWalk E s t p) :=
  inferInstanceAs (Decidable (p.head? = some s ∧ p.getLast? = some t ∧
    p.Chain' (Adj E)))

/-- All simple paths (no repeated node) from u to t that avoid vis,
with fuel bounding the length. -/
def simplePathsAux (E : List (WEdge V)) : ℕ → V → V → List V → List (List V)
  | 0, _, _, _ => []
  | n + 1, u, t, vis =>
    if u = t then [[u]]
    else
      ((succs E u).filter (fun v => decide (v ∉ u :: vis))).flatMap
        (fun v => (simplePathsAux E n v t (u :: vis)).map (fun q => u :: q))

/-- All simple paths from s to t along edges of E. -/
def simplePaths (E : List (WEdge V)) (s t : V) : List (List V) :=
  simplePathsAux E (E.length + 1) s t []

/-- Model of the networkx dijkstra_path / dijkstra_path_length pair, by its
contract for non-negative weights: a minimum-cost simple path together with
its cost, or the ([], inf) sentinel when no path exists. -/
def shortestPathCore (E : List (WEdge V)) (s t : V) : List V × WithTop ℚ :=
  match (simplePaths E s t).argmin (walkCost E) with
  | some p => (p, walkCost E p)
  | none => ([], ⊤)

/-- Model of nx.single_source_dijkstra_path_length by its contract for
non-negative weights: per-node minimum simple-path cost (⊤ = the node is
absent from the returned dict, i.e. unreachable). -/
def dijkstraLengths (E : List (WEdge V)) (s v : V) : WithTop ℚ :=
  match (simplePaths E s v).argmin (walkCost E) with
  | some p => walkCost E p
  | none => ⊤

/-- One Bellman-Ford relaxation round. -/
def relaxStep (E : List (WEdge V)) (d : V → WithTop ℚ) : V → WithTop ℚ :=
  fun v =>
    ((E.filter (fun e => decide (e.2.1 = v))).map
        (fun e => d e.1 + e.2.2)).foldr min (d v)

/-- Initial Bellman-Ford distance estimate. -/
def bfInit (s : V) : V → WithTop ℚ := fun v => if v = s then 0 else ⊤

/-- Bellman-Ford distance estimates after k relaxation rounds. -/
def bfIter (E : List (WEdge V)) (s : V) : ℕ → V → WithTop ℚ
  | 0 => bfInit s
  | n + 1 => relaxStep E (bfIter E s n)

end WeightedDigraph

section MainPy

/-- Per-edge attributes of the main.py graph (networkx edge data dict):
base_weight, weight (the effective weight, possibly inf), open flag,
congestion_level. -/
structure EdgeData where
  base_weight : ℚ
  weight : WithTop ℚ
  isOpen : Bool
  congestion_level : ℚ
  deriving DecidableEq, Inhabited

variable {V : Type} [DecidableEq V]

/-- The main.py graph: a directed graph as node list plus edge list with
attributes. -/
structure TGraph (V : Type) where
  nodes : List V
  edges : List (V × V × EdgeData)

/-- Consecutive ordered pairs of a path (set(zip(path, path[1:])) in
main.py). -/
def consecPairs (p : List V) : List (V × V) := p.zip p.tail

/-- Python round(x, 2) on rationals. -/
def round2 (x : ℚ) : ℚ := (round (x * 100) : ℤ) / 100

/-- Per-edge body of update_traffic in main.py: congestion bump or decay for
open edges followed by the effective-weight recomputation with fluctuation f;
closed edges get weight inf. -/
def updEdge (path : List V) (f : ℚ) (u v : V) (d : EdgeData) : EdgeData :=
  if d.isOpen then
    let c :=
      if (u, v) ∈ consecPairs path then min (d.congestion_level + 0.05) 1
      else max (d.congestion_level * 0.95) 0
    { d with congestion_level := c,
             weight := ((round2 (d.base_weight * f * (1 + c)) : ℚ) : WithTop ℚ) }
  else
    { d with weight := ⊤ }

/-- update_traffic(G, path) of main.py; fl gives the random.uniform(0.9, 1.2)
draw for each edge of this call. -/
def update_traffic (G : TGraph V) (path : List V) (fl : V → V → ℚ) : TGraph V :=
  { G with edges := G.edges.map (fun e => (e.1, e.2.1, updEdge path (fl e.1 e.2.1) e.1 e.2.1 e.2.2)) }

/-- The weighted edge list seen by the path planner: endpoints plus
effective weight. -/
def triples (G : TGraph V) : List (WEdge V) :=
  G.edges.map (fun e => (e.1, e.2.1, e.2.2.weight))

/-- get_shortest_path(G, source, target) of main.py. -/
def get_shortest_path (G : TGraph V) (s t : V) : List V × WithTop ℚ :=
  shortestPathCore (triples G) s t

/-- The weighted edge list of the subgraph made of the open edges only (used
to state what the spec asserts about unreachability). -/
def openTriples (G : TGraph V) : List (WEdge V) :=
  (G.edges.filter (fun e => e.2.2.isOpen)).map (fun e => (e.1, e.2.1, e.2.2.weight))

/-- The sidebar checkboxes of main.py: every edge's open flag is rewritten
from the user's current toggles. -/
def setOpenAll (G : TGraph V) (o : V → V → Bool) : TGraph V :=
  { G with edges := G.edges.map (fun e => (e.1, e.2.1, { e.2.2 with isOpen := o e.1 e.2.1 })) }

/-- Rewrite every edge's base_weight (used to state that the planner never
reads base_weight). -/
def setBaseWeights (G : TGraph V) (b : V → V → ℚ) : TGraph V :=
  { G with edges := G.edges.map (fun e => (e.1, e.2.1, { e.2.2 with base_weight := b e.1 e.2.1 })) }

/-- One interaction step of main.py: the checkboxes rewrite the open flags,
then update_traffic runs with some traveled path and fluctuation draw. -/
def trafficStep (G : TGraph V) (st : List V × (V → V → Bool) × (V → V → ℚ)) : TGraph V :=
  update_traffic (setOpenAll G st.2.1) st.1 st.2.2

/-- A finite sequence of interaction steps. -/
def runSteps (G : TGraph V) (l : List (List V × (V → V → Bool) × (V → V → ℚ))) : TGraph V :=
  l.foldl trafficStep G

/-- The Move Vehicle handler of main.py (button pressed): advance the cursor
and update traffic when the path is non-empty and the cursor is not at the
final node, otherwise do nothing. -/
def moveVehicle (cursor : ℕ) (path : List V) (G : TGraph V) (fl : V → V → ℚ) :
    ℕ × TGraph V :=
  if path ≠ [] ∧ cursor < path.length - 1 then (cursor + 1, update_traffic G path fl)
  else (cursor, G)

/-- The Reset Vehicle handler of main.py: cursor back to 0 and one
update_traffic call with the empty path. -/
def resetVehicle (G : TGraph V) (fl : V → V → ℚ) : ℕ × TGraph V :=
  (0, update_traffic G [] fl)

/-- k repetitions of update_traffic with the empty path (fls gives the
fluctuation draws of each call). -/
def iterEmpty (G : TGraph V) (fls : ℕ → V → V → ℚ) : ℕ → TGraph V
  | 0 => G
  | k + 1 => update_traffic (iterEmpty G fls k) [] (fls k)

/-- congestion_level of the i-th edge (0 when out of range). -/
def congAt (G : TGraph V) (i : ℕ) : ℚ :=
  match G.edges[i]? with
  | some e => e.2.2.congestion_level
  | none => 0

end MainPy

section Trial1Py

variable {V : Type} [DecidableEq V]

/-- The trial1.py graph: a weighted directed graph (G.add_weighted_edges_from). -/
structure WGraph (V : Type) where
  nodes : List V
  edges : List (V × V × ℚ)

/-- Its weighted edge list with weights embedded into WithTop ℚ. -/
def wtriples (G : WGraph V) : List (WEdge V) :=
  G.edges.map (fun e => (e.1, e.2.1, (e.2.2 : WithTop ℚ)))

/-- dijkstra(graph, source) of trial1.py, modelled by the library contract of
nx.single_source_dijkstra_path_length (valid for non-negative weights). -/
def dijkstra (G : WGraph V) (s : V) : V → WithTop ℚ :=
  fun v => dijkstraLengths (wtriples G) s v

/-- bellman_ford(graph, source) of trial1.py: |V| - 1 Bellman-Ford relaxation
rounds, the defining computation behind
nx.single_source_bellman_ford_path_length. -/
def bellman_ford (G : WGraph V) (s : V) : V → WithTop ℚ :=
  fun v => bfIter (wtriples G) s (G.nodes.length - 1) v

/-- The algorithm selectbox of trial1.py. -/
inductive Algo where
  | dijkstraAlgo : Algo
  | bellmanFord : Algo
  deriving DecidableEq

/-- The Run Simulation handler of trial1.py: reject an unknown source node
with an error message before running any algorithm, otherwise run the chosen
algorithm; the graph is returned unchanged in both cases. -/
def runSimulation (algo : Algo) (source : V) (G : WGraph V) :
    Except String (V → WithTop ℚ) × WGraph V :=
  if source ∈ G.nodes then
    (Except.ok (match algo with
      | Algo.dijkstraAlgo => dijkstra G source
      | Algo.bellmanFord => bellman_ford G source), G)
  else
    (Except.error "Source node not found in the graph. Try A, B, C, D, or E.", G)

end Trial1Py

section ConcreteGraphs

/-- A concrete instance of trial1.py's generate_graph: its fixed topology with
one admissible draw of the random.randint(2, 10) weights. -/
def trialGraph : WGraph String :=
  { nodes := ["A", "B", "C", "D", "E"],
    edges := [("A", "B", 4), ("A", "C", 3), ("B", "D", 7),
              ("C", "D", 2), ("D", "E", 5), ("B", "E", 6)] }

/-- A freshly constructed main.py edge: open, congestion 0, weight attribute
initialised to 0, with the given base weight. -/
def initEdge (b : ℚ) : EdgeData :=
  { base_weight := b, weight := 0, isOpen := true, congestion_level := 0 }

/-- A concrete instance of main.py's init_graph: its fixed topology with one
admissible draw of the random.randint(5, 15) base weights. -/
def mainGraph : TGraph String :=
  { nodes := ["A", "B", "C", "D", "E"],
    edges := [("A", "B", initEdge 10), ("A", "C", initEdge 7),
              ("B", "C", initEdge 6), ("B", "D", initEdge 12),
              ("C", "D", initEdge 8), ("C", "E", initEdge 5),
              ("D", "E", initEdge 9)] }

/-- A two-node graph whose only edge A-B is closed (weight inf after an
update): B is unreachable from A among open edges, yet the edge is still in
the graph. -/
def closedGraph : TGraph String :=
  { nodes := ["A", "B"],
    edges := [("A", "B", EdgeData.mk 10 ⊤ false 0)] }

end ConcreteGraphs

section DigraphLemmas

variable {V : Type} [DecidableEq V]

lemma mem_succs {E : List (WEdge V)} {u v : V} : v ∈ succs E u ↔ Adj E u v := by
  constructor
  · intro h
    simp only [succs, List.mem_map, List.mem_filter, decide_eq_true_eq] at h
    obtain ⟨e, ⟨he, hu⟩, hv⟩ := h
    refine ⟨e.2.2, ?_⟩
    obtain ⟨a, b, c⟩ := e
    cases hu; cases hv; exact he
  · rintro ⟨c, hc⟩
    simp only [succs, List.mem_map, List.mem_filter, decide_eq_true_eq]
    exact ⟨(u, v, c), ⟨hc, rfl⟩, rfl⟩

lemma adj_wt_mem {E : List (WEdge V)} {u v : V} (h : Adj E u v) :
    (u, v, wt E u v) ∈ E := by
  obtain ⟨c, hc⟩ := h
  unfold wt
  cases hf : E.find? (fun e => decide (e.1 = u) && decide (e.2.1 = v)) with
  | none =>
    exfalso
    have := List.find?_eq_none.mp hf (u, v, c) hc
    simp at this
  | some e =>
    have hm := List.mem_of_find?_eq_some hf
    have hp := List.find?_some hf
    simp only [Bool.and_eq_true, decide_eq_true_eq] at hp
    obtain ⟨a, b, w⟩ := e
    obtain ⟨h1, h2⟩ := hp
    cases h1; cases h2
    exact hm

lemma wt_nonneg {E : List (WEdge V)} (hE : ∀ e ∈ E, 0 ≤ e.2.2) (u v : V) :
    0 ≤ wt E u v := by
  unfold wt
  cases hf : E.find? (fun e => decide (e.1 = u) && decide (e.2.1 = v)) with
  | none => exact le_top
  | some e => exact hE e (List.mem_of_find?_eq_some hf)

lemma wt_eq_of_wf {E : List (WEdge V)}
    (hWf : (E.map (fun e => (e.1, e.2.1))).Nodup) {u v : V} {c : WithTop ℚ}
    (h : (u, v, c) ∈ E) : wt E u v = c := by
  induction E with
  | nil => cases h
  | cons e E ih =>
    simp only [List.map_cons, List.nodup_cons] at hWf
    by_cases hp : (fun e : WEdge V => decide (e.1 = u) && decide (e.2.1 = v)) e = true
    · have hfind : (e :: E).find?
          (fun e => decide (e.1 = u) && decide (e.2.1 = v)) = some e :=
        List.find?_cons_of_pos E hp
      simp only [Bool.and_eq_true, decide_eq_true_eq] at hp
      rcases List.mem_cons.mp h with heq | hmem
      · unfold wt; rw [hfind, ← heq]
      · exfalso
        apply hWf.1
        have : (u, v) ∈ E.map (fun e => (e.1, e.2.1)) :=
          List.mem_map.mpr ⟨(u, v, c), hmem, rfl⟩
        rw [hp.1, hp.2]
        exact this
    · have hfind : (e :: E).find?
          (fun e => decide (e.1 = u) && decide (e.2.1 = v)) =
          E.find? (fun e => decide (e.1 = u) && decide (e.2.1 = v)) :=
        List.find?_cons_of_neg E hp
      have hmem : (u, v, c) ∈ E := by
        rcases List.mem_cons.mp h with heq | hmem
        · exfalso; apply hp; rw [← heq]; simp
        · exact hmem
      have := ih hWf.2 hmem
      unfold wt at this ⊢
      rw [hfind]
      exact this

lemma walkCost_nonneg {E : List (WEdge V)} (hE : ∀ e ∈ E, 0 ≤ e.2.2) :
    ∀ p : List V, 0 ≤ walkCost E p
  | [] => le_refl 0
  | [_] => le_refl 0
  | u :: v :: p =>
    add_nonneg (wt_nonneg hE u v) (walkCost_nonneg hE (v :: p))

lemma walkCost_append (E : List (WEdge V)) :
    ∀ (l1 : List V) (a : V) (l2 : List V),
      walkCost E (l1 ++ a :: l2) = walkCost E (l1 ++ [a]) + walkCost E (a :: l2)
  | [], a, l2 => by simp [walkCost]
  | [x], a, l2 => by
    show walkCost E (x :: a :: l2) = walkCost E [x, a] + walkCost E (a :: l2)
    cases l2 with
    | nil => simp [walkCost]
    | cons b l2 => simp [walkCost, add_assoc]
  | x :: y :: l1, a, l2 => by
    have ih := walkCost_append E (y :: l1) a l2
    show wt E x y + walkCost E ((y :: l1) ++ a :: l2) = _
    rw [ih]
    show _ = wt E x y + walkCost E ((y :: l1) ++ [a]) + walkCost E (a :: l2)
    rw [add_assoc]

lemma walkCost_concat (E : List (WEdge V)) :
    ∀ (q : List V) (u v : V), q.getLast? = some u →
      walkCost E (q ++ [v]) = walkCost E q + wt E u v
  | [], u, v, h => by cases h
  | [x], u, v, h => by
    have hx : x = u := by simpa using h
    cases hx
    simp [walkCost]
  | x :: y :: q, u, v, h => by
    have hlast : (y :: q).getLast? = some u := by
      rw [← List.getLast?_cons_cons (a := x)]; exact h
    have ih := walkCost_concat E (y :: q) u v hlast
    show wt E x y + walkCost E ((y :: q) ++ [v]) = wt E x y + walkCost E (y :: q) + wt E u v
    rw [ih, add_assoc]

lemma getLast?_mem_of_eq_some {l : List α} {a : α} (h : l.getLast? = some a) :
    a ∈ l := by
  cases l with
  | nil => cases h
  | cons x t =>
    have hne : x :: t ≠ [] := by simp
    rw [List.getLast?_eq_getLast _ hne] at h
    have : (x :: t).getLast hne = a := by injection h
    rw [← this]
    exact List.getLast_mem hne

lemma simplePathsAux_sound {E : List (WEdge V)} {t : V} :
    ∀ (n : ℕ) (u : V) (vis : List V) (p : List V), u ∉ vis →
      p ∈ simplePathsAux E n u t vis →
      p.head? = some u ∧ p.getLast? = some t ∧ p.Chain' (Adj E) ∧ p.Nodup ∧
        ∀ x ∈ p, x ∉ vis := by
  intro n
  induction n with
  | zero => intro u vis p _ hp; cases hp
  | succ n ih =>
    intro u vis p hu hp
    by_cases hut : u = t
    · rw [simplePathsAux, if_pos hut] at hp
      have hpu : p = [u] := by simpa using hp
      subst hpu; subst hut
      refine ⟨rfl, rfl, List.chain'_singleton u, by simp, ?_⟩
      intro x hx
      have : x = u := by simpa using hx
      subst this; exact hu
    · rw [simplePathsAux, if_neg hut] at hp
      simp only [List.mem_flatMap, List.mem_filter, List.mem_map,
        decide_eq_true_eq] at hp
      obtain ⟨v, ⟨hvsucc, hvnotin⟩, q, hq, hpq⟩ := hp
      have hvu : v ∉ (u :: vis) := hvnotin
      have hvvis : v ∉ vis := fun h => hvu (List.mem_cons_of_mem u h)
      obtain ⟨hqh, hql, hqc, hqn, hqd⟩ :=
        ih v (u :: vis) q (fun h => hvu h) hq
      subst hpq
      have hqne : q ≠ [] := by
        intro h; subst h; cases hqh
      constructor
      · rfl
      refine ⟨?_, ?_, ?_, ?_⟩
      · cases q with
        | nil => exact absurd rfl hqne
        | cons y q => rw [List.getLast?_cons_cons]; exact hql
      · rw [List.chain'_cons']
        refine ⟨?_, hqc⟩
        intro y hy
        rw [hqh] at hy
        have hyv : v = y := by injection hy
        cases hyv
        exact mem_succs.mp hvsucc
      · rw [List.nodup_cons]
        refine ⟨?_, hqn⟩
        intro hmem
        exact hqd u hmem (List.mem_cons_self u vis)
      · intro x hx
        rcases List.mem_cons.mp hx with hxu | hxq
        · subst hxu; exact hu
        · intro hxvis
          exact hqd x hxq (List.mem_cons_of_mem u hxvis)

lemma simplePathsAux_complete {E : List (WEdge V)} {t : V} :
    ∀ (n : ℕ) (p : List V) (u : V) (vis : List V),
      p.length ≤ n → p.head? = some u → p.getLast? = some t →
      p.Chain' (Adj E) → p.Nodup → (∀ x ∈ p, x ∉ vis) →
      p ∈ simplePathsAux E n u t vis := by
  intro n
  induction n with
  | zero =>
    intro p u vis hlen hh _ _ _ _
    interval_cases hp : p.length
    · rw [List.length_eq_zero] at hp; subst hp; cases hh
  | succ n ih =>
    intro p u vis hlen hh hl hc hn hd
    cases p with
    | nil => cases hh
    | cons x q =>
      have hxu : x = u := by injection hh
      subst hxu
      cases q with
      | nil =>
        have hut : x = t := by simpa using hl
        rw [simplePathsAux, if_pos hut]
        simp
      | cons v q =>
        have hlast : (v :: q).getLast? = some t := by
          rw [← List.getLast?_cons_cons (a := x)]; exact hl
        have hxt : x ≠ t := by
          intro hxt
          have : t ∈ v :: q := getLast?_mem_of_eq_some hlast
          rw [List.nodup_cons] at hn
          exact hn.1 (hxt ▸ this)
        rw [simplePathsAux, if_neg hxt]
        simp only [List.mem_flatMap, List.mem_filter, List.mem_map,
          decide_eq_true_eq]
        refine ⟨v, ⟨?_, ?_⟩, v :: q, ?_, rfl⟩
        · exact mem_succs.mpr ((List.chain'_cons.mp hc).1)
        · intro hv
          rcases List.mem_cons.mp hv with hvx | hvvis
          · rw [List.nodup_cons] at hn
            exact hn.1 (hvx ▸ List.mem_cons_self v q)
          · exact hd v (List.mem_cons_of_mem x (List.mem_cons_self v q)) hvvis
        · refine ih (v :: q) v (x :: vis) ?_ rfl hlast
            (List.chain'_cons.mp hc).2 hn.of_cons ?_
          · have : (x :: v :: q).length = (v :: q).length + 1 := rfl
            omega
          · intro y hy
            intro hmem
            rcases List.mem_cons.mp hmem with hyx | hyvis
            · rw [List.nodup_cons] at hn
              exact hn.1 (hyx ▸ hy)
            · exact hd y (List.mem_cons_of_mem x hy) hyvis

lemma nodup_subset_length {l m : List α} [DecidableEq α] (h : l.Nodup)
    (hs : ∀ x ∈ l, x ∈ m) : l.length ≤ m.length := by
  calc l.length = l.toFinset.card := (List.toFinset_card_of_nodup h).symm
    _ ≤ m.toFinset.card := Finset.card_le_card (fun x hx =>
        List.mem_toFinset.mpr (hs x (List.mem_toFinset.mp hx)))
    _ ≤ m.length := List.toFinset_card_le m

lemma consecPairs_nodup : ∀ {p : List V}, p.Nodup → (p.zip p.tail).Nodup
  | [], _ => by simp
  | [_], _ => by simp
  | x :: y :: p, h => by
    show ((x, y) :: (y :: p).zip p).Nodup
    rw [List.nodup_cons] at h ⊢
    refine ⟨?_, consecPairs_nodup h.2⟩
    intro hmem
    have : x ∈ y :: p := by
      have := List.of_mem_zip hmem
      exact this.1
    exact h.1 this

lemma chain_pairs_mem {E : List (WEdge V)} :
    ∀ {p : List V}, p.Chain' (Adj E) →
      ∀ pr ∈ p.zip p.tail, pr ∈ E.map (fun e => (e.1, e.2.1))
  | [], _, pr, hpr => by cases hpr
  | [_], _, pr, hpr => by cases hpr
  | x :: y :: p, h, pr, hpr => by
    rw [List.chain'_cons] at h
    rcases List.mem_cons.mp hpr with heq | hmem
    · subst heq
      obtain ⟨c, hc⟩ := h.1
      exact List.mem_map.mpr ⟨(x, y, c), hc, rfl⟩
    · exact chain_pairs_mem h.2 pr hmem

lemma walk_length_le {E : List (WEdge V)} {p : List V}
    (hc : p.Chain' (Adj E)) (hn : p.Nodup) : p.length ≤ E.length + 1 := by
  cases p with
  | nil => simp
  | cons x q =>
    have hzip : ((x :: q).zip q).length = q.length := by
      rw [List.length_zip]
      simp
    have hnodup := consecPairs_nodup hn
    have hsub := chain_pairs_mem hc
    have hle : ((x :: q).zip q).length ≤
        (E.map (fun e => (e.1, e.2.1))).length :=
      nodup_subset_length hnodup (fun pr hpr => hsub pr hpr)
    rw [List.length_map] at hle
    rw [hzip] at hle
    simpa using Nat.add_le_add_right hle 1

lemma not_nodup_decomp {α : Type} [DecidableEq α] :
    ∀ {l : List α}, ¬ l.Nodup → ∃ a l1 l2 l3, l = l1 ++ a :: l2 ++ a :: l3
  | [], h => absurd List.nodup_nil h
  | x :: t, h => by
    by_cases hx : x ∈ t
    · obtain ⟨s, r, hr⟩ := List.append_of_mem hx
      exact ⟨x, [], s, r, by rw [hr]; rfl⟩
    · have hnt : ¬ t.Nodup := by
        intro hnd
        exact h (List.nodup_cons.mpr ⟨hx, hnd⟩)
      obtain ⟨a, l1, l2, l3, hdecomp⟩ := not_nodup_decomp hnt
      exact ⟨a, x :: l1, l2, l3, by rw [hdecomp]; rfl⟩

lemma walk_to_simple {E : List (WEdge V)} {s t : V} :
    ∀ (n : ℕ) (w : List V), w.length ≤ n → isWalk E s t w →
      ∃ p, isWalk E s t p ∧ p.Nodup ∧ p.length ≤ w.length ∧
        ((∀ e ∈ E, 0 ≤ e.2.2) → walkCost E p ≤ walkCost E w) := by
  intro n
  induction n with
  | zero =>
    intro w hlen hw
    have : w = [] := List.length_eq_zero.mp (Nat.le_zero.mp hlen)
    subst this
    cases hw.1
  | succ n ih =>
    intro w hlen hw
    by_cases hnd : w.Nodup
    · exact ⟨w, hw, hnd, le_refl _, fun _ => le_refl _⟩
    · obtain ⟨a, l1, l2, l3, hdecomp⟩ := not_nodup_decomp hnd
      obtain ⟨hh, hl, hc⟩ := hw
      subst hdecomp
      -- w = (l1 ++ (a :: l2)) ++ (a :: l3); splice out the a :: l2 block
      have hlastsome : ∃ z, (a :: l3).getLast? = some z :=
        ⟨(a :: l3).getLast (by simp), List.getLast?_eq_getLast _ (by simp)⟩
      obtain ⟨z, hz⟩ := hlastsome
      have hchain1 : (l1 ++ (a :: l2)).Chain' (Adj E) :=
        (List.chain'_append.mp hc).1
      have hchain3 : (a :: l3).Chain' (Adj E) :=
        (List.chain'_append.mp hc).2.1
      have hchainl1 : l1.Chain' (Adj E) := (List.chain'_append.mp hchain1).1
      have hgluel1 : ∀ x ∈ l1.getLast?, Adj E x a := by
        intro x hx
        exact (List.chain'_append.mp hchain1).2.2 x hx a rfl
      have hchain2 : (l1 ++ (a :: l3)).Chain' (Adj E) := by
        rw [List.chain'_append]
        exact ⟨hchainl1, hchain3, fun x hx y hy => by
          have hya : a = y := by injection hy
          cases hya
          exact hgluel1 x hx⟩
      have hhead2 : (l1 ++ (a :: l3)).head? = some s := by
        cases l1 with
        | nil => simpa using hh
        | cons x l1 => simpa using hh
      have hlast2 : (l1 ++ (a :: l3)).getLast? = some t := by
        rw [List.getLast?_append, hz] at hl ⊢
        simpa using hl
      have hwalk2 : isWalk E s t (l1 ++ (a :: l3)) := ⟨hhead2, hlast2, hchain2⟩
      have hlen2 : (l1 ++ (a :: l3)).length <
          ((l1 ++ (a :: l2)) ++ (a :: l3)).length := by
        simp only [List.length_append, List.length_cons]
        omega
      have hlenw : ((l1 ++ (a :: l2)) ++ (a :: l3)).length ≤ n + 1 := hlen
      obtain ⟨p, hp, hpnd, hplen, hpcost⟩ :=
        ih (l1 ++ (a :: l3)) (by omega) hwalk2
      refine ⟨p, hp, hpnd, by omega, ?_⟩
      intro hE
      refine (hpcost hE).trans ?_
      -- walkCost (l1 ++ a :: l3) ≤ walkCost ((l1 ++ a :: l2) ++ a :: l3)
      have hcost1 : walkCost E ((l1 ++ (a :: l2)) ++ (a :: l3)) =
          walkCost E ((l1 ++ (a :: l2)) ++ [a]) + walkCost E (a :: l3) :=
        walkCost_append E (l1 ++ (a :: l2)) a l3
      have heq : (l1 ++ (a :: l2)) ++ [a] = l1 ++ (a :: (l2 ++ [a])) := by simp
      have hcost2 : walkCost E (l1 ++ (a :: (l2 ++ [a]))) =
          walkCost E (l1 ++ [a]) + walkCost E (a :: (l2 ++ [a])) :=
        walkCost_append E l1 a (l2 ++ [a])
      have hcost3 : walkCost E (l1 ++ (a :: l3)) =
          walkCost E (l1 ++ [a]) + walkCost E (a :: l3) :=
        walkCost_append E l1 a l3
      rw [hcost1, heq, hcost2, hcost3]
      have hmid : (0 : WithTop ℚ) ≤ walkCost E (a :: (l2 ++ [a])) :=
        walkCost_nonneg hE _
      exact add_le_add_right (le_add_of_nonneg_right hmid) _

lemma mem_simplePaths_sound {E : List (WEdge V)} {s t : V} {p : List V}
    (h : p ∈ simplePaths E s t) : isWalk E s t p ∧ p.Nodup := by
  obtain ⟨hh, hl, hc, hn, _⟩ :=
    simplePathsAux_sound (E := E) (t := t) (E.length + 1) s [] p (by simp) h
  exact ⟨⟨hh, hl, hc⟩, hn⟩

lemma mem_simplePaths_complete {E : List (WEdge V)} {s t : V} {p : List V}
    (hw : isWalk E s t p) (hn : p.Nodup) : p ∈ simplePaths E s t := by
  obtain ⟨hh, hl, hc⟩ := hw
  exact simplePathsAux_complete (E.length + 1) p s []
    (walk_length_le hc hn) hh hl hc hn (by simp)

lemma simplePaths_eq_nil_iff {E : List (WEdge V)} {s t : V} :
    simplePaths E s t = [] ↔ ¬ ∃ p, isWalk E s t p := by
  constructor
  · intro hnil ⟨p, hp⟩
    obtain ⟨q, hq, hqn, _, _⟩ := walk_to_simple p.length p (le_refl _) hp
    have := mem_simplePaths_complete hq hqn
    rw [hnil] at this
    cases this
  · intro hno
    by_contra hne
    obtain ⟨p, hp⟩ := List.exists_mem_of_ne_nil _ hne
    obtain ⟨hw, _⟩ := mem_simplePaths_sound hp
    exact hno ⟨p, hw⟩

lemma foldr_min_le_init {α : Type} [LinearOrder α] :
    ∀ (l : List α) (b : α), l.foldr min b ≤ b
  | [], b => le_refl b
  | x :: t, b => (min_le_right x _).trans (foldr_min_le_init t b)

lemma foldr_min_le_of_mem {α : Type} [LinearOrder α] :
    ∀ {l : List α} {x : α} (b : α), x ∈ l → l.foldr min b ≤ x
  | [], x, b, h => absurd h (List.not_mem_nil x)
  | y :: t, x, b, h => by
    rcases List.mem_cons.mp h with heq | hmem
    · subst heq
      exact min_le_left x _
    · exact (min_le_right y _).trans (foldr_min_le_of_mem b hmem)

lemma foldr_min_cases {α : Type} [LinearOrder α] :
    ∀ (l : List α) (b : α), l.foldr min b = b ∨ ∃ x ∈ l, l.foldr min b = x
  | [], b => Or.inl rfl
  | y :: t, b => by
    rw [List.foldr_cons]
    rcases le_total y (t.foldr min b) with hle | hle
    · right
      exact ⟨y, List.mem_cons_self y t, min_eq_left hle⟩
    · rcases foldr_min_cases t b with heq | ⟨x, hx, heq⟩
      · left; rw [min_eq_right hle, heq]
      · right; exact ⟨x, List.mem_cons_of_mem y hx, by rw [min_eq_right hle, heq]⟩

lemma relaxStep_le {E : List (WEdge V)} (d : V → WithTop ℚ) (v : V) :
    relaxStep E d v ≤ d v :=
  foldr_min_le_init _ _

lemma bfIter_succ_le {E : List (WEdge V)} {s : V} (k : ℕ) (v : V) :
    bfIter E s (k + 1) v ≤ bfIter E s k v :=
  relaxStep_le _ v

lemma bfIter_le_walkCost {E : List (WEdge V)} {s : V} :
    ∀ (k : ℕ) (p : List V) (v : V), isWalk E s v p → p.length ≤ k + 1 →
      bfIter E s k v ≤ walkCost E p := by
  intro k
  induction k with
  | zero =>
    intro p v hw hlen
    obtain ⟨hh, hl, _⟩ := hw
    cases p with
    | nil => cases hh
    | cons x q =>
      have hq : q = [] := by
        have : q.length = 0 := by simpa using hlen
        exact List.length_eq_zero.mp this
      subst hq
      have hxs : x = s := by injection hh
      have hxv : x = v := by simpa using hl
      subst hxs
      rw [← hxv]
      show bfInit x x ≤ walkCost E [x]
      rw [bfInit, if_pos rfl]
      exact le_refl 0
  | succ k ih =>
    intro p v hw hlen
    by_cases hsmall : p.length ≤ k + 1
    · exact (bfIter_succ_le k v).trans (ih p v hw hsmall)
    · have hplen : p.length = k + 2 := by omega
      have hpne : p ≠ [] := by
        intro h; rw [h] at hplen; cases hplen
      obtain ⟨hh, hl, hc⟩ := hw
      have hdecomp := List.dropLast_append_getLast hpne
      set q : List V := p.dropLast with hq
      have hqlen : q.length = k + 1 := by
        rw [hq, List.length_dropLast]; omega
      have hqne : q ≠ [] := by
        intro h
        rw [h] at hqlen; cases hqlen
      have hlastv : p.getLast hpne = v := by
        rw [List.getLast?_eq_getLast p hpne] at hl
        injection hl
      set u : V := q.getLast hqne with hu
      have hql : q.getLast? = some u := List.getLast?_eq_getLast q hqne
      have hpsplit : q ++ [v] = p := by
        rw [← hlastv]; exact hdecomp
      have hcq : (q ++ [v]).Chain' (Adj E) := by rw [hpsplit]; exact hc
      rw [List.chain'_append] at hcq
      obtain ⟨hcq1, _, hglue⟩ := hcq
      have hadj : Adj E u v := hglue u hql v rfl
      have hhq : q.head? = some s := by
        have : (q ++ [v]).head? = some s := by rw [hpsplit]; exact hh
        rw [List.head?_append] at this
        cases hcase : q.head? with
        | some z => rw [hcase] at this; simpa using this
        | none => exact absurd (List.head?_eq_none_iff.mp hcase) hqne
      have hwalkq : isWalk E s u q := ⟨hhq, hql, hcq1⟩
      have hbfq : bfIter E s k u ≤ walkCost E q := ih q u hwalkq (by omega)
      have hedge : (u, v, wt E u v) ∈ E := adj_wt_mem hadj
      have hterm : bfIter E s k u + wt E u v ∈
          ((E.filter (fun e => decide (e.2.1 = v))).map
            (fun e => bfIter E s k e.1 + e.2.2)) := by
        refine List.mem_map.mpr ⟨(u, v, wt E u v), ?_, rfl⟩
        exact List.mem_filter.mpr ⟨hedge, by simp⟩
      have hle : bfIter E s (k + 1) v ≤ bfIter E s k u + wt E u v :=
        foldr_min_le_of_mem _ hterm
      refine hle.trans ?_
      rw [← hpsplit, walkCost_concat E q u v hql]
      exact add_le_add_right hbfq _

lemma bfIter_exists_walk {E : List (WEdge V)} {s : V}
    (hWf : (E.map (fun e => (e.1, e.2.1))).Nodup) :
    ∀ (k : ℕ) (v : V), bfIter E s k v = ⊤ ∨
      ∃ p, isWalk E s v p ∧ p.length ≤ k + 1 ∧ walkCost E p ≤ bfIter E s k v := by
  intro k
  induction k with
  | zero =>
    intro v
    by_cases hv : v = s
    · subst hv
      right
      refine ⟨[v], ⟨rfl, rfl, List.chain'_singleton v⟩, by simp, ?_⟩
      show walkCost E [v] ≤ bfInit v v
      rw [bfInit, if_pos rfl]
      exact le_refl 0
    · left
      show bfInit s v = ⊤
      rw [bfInit, if_neg hv]
  | succ k ih =>
    intro v
    rcases foldr_min_cases
        ((E.filter (fun e => decide (e.2.1 = v))).map
          (fun e => bfIter E s k e.1 + e.2.2)) (bfIter E s k v) with hbase | ⟨x, hx, hxeq⟩
    · -- the minimum is the previous estimate
      rcases ih v with htop | ⟨p, hp, hplen, hpcost⟩
      · left
        show relaxStep E (bfIter E s k) v = ⊤
        rw [relaxStep, hbase, htop]
      · right
        refine ⟨p, hp, by omega, ?_⟩
        show walkCost E p ≤ relaxStep E (bfIter E s k) v
        rw [relaxStep, hbase]
        exact hpcost
    · -- the minimum is a relaxed edge into v
      obtain ⟨e, hef, hex⟩ := List.mem_map.mp hx
      obtain ⟨e1, e2, ec⟩ := e
      have hemem : (e1, e2, ec) ∈ E := (List.mem_filter.mp hef).1
      have hev : e2 = v := by
        have := (List.mem_filter.mp hef).2
        simpa using this
      subst hev
      rcases ih e1 with htop | ⟨q, hq, hqlen, hqcost⟩
      · left
        show relaxStep E (bfIter E s k) e2 = ⊤
        rw [relaxStep, hxeq, ← hex]
        show bfIter E s k e1 + ec = ⊤
        rw [htop, top_add]
      · right
        obtain ⟨hqh, hql, hqc⟩ := hq
        have hqne : q ≠ [] := by
          intro h; rw [h] at hqh; cases hqh
        have hadj : Adj E e1 e2 := ⟨ec, hemem⟩
        refine ⟨q ++ [e2], ⟨?_, ?_, ?_⟩, ?_, ?_⟩
        · rw [List.head?_append]
          cases hcase : q.head? with
          | some z => simpa [hcase] using hqh
          | none => exact absurd (List.head?_eq_none_iff.mp hcase) hqne
        · exact List.getLast?_concat q
        · rw [List.chain'_append]
          refine ⟨hqc, List.chain'_singleton e2, ?_⟩
          intro a ha y hy
          have hae : e1 = a := by
            rw [hql] at ha; injection ha
          have hyv : e2 = y := by injection hy
          cases hyv
          cases hae
          exact hadj
        · rw [List.length_append]
          simp only [List.length_cons, List.length_nil]
          omega
        · rw [walkCost_concat E q e1 e2 hql]
          have hwt : wt E e1 e2 = ec := wt_eq_of_wf hWf hemem
          rw [hwt]
          show walkCost E q + ec ≤ relaxStep E (bfIter E s k) e2
          rw [relaxStep, hxeq, ← hex]
          exact add_le_add_right hqcost _

lemma walk_mem_nodes {E : List (WEdge V)} {ns : List V}
    (hcl : ∀ e ∈ E, e.1 ∈ ns ∧ e.2.1 ∈ ns) :
    ∀ (p : List V), p.Chain' (Adj E) → ∀ hd, p.head? = some hd → hd ∈ ns →
      ∀ x ∈ p, x ∈ ns
  | [], _, hd, hh, _ => by cases hh
  | [y], _, hd, hh, hmem => by
    intro x hx
    have hxy : x = y := by simpa using hx
    have hyhd : y = hd := by injection hh
    rw [hxy, hyhd]
    exact hmem
  | y :: z :: p, hc, hd, hh, hmem => by
    intro x hx
    rw [List.chain'_cons] at hc
    have hyhd : y = hd := by injection hh
    obtain ⟨c, hcmem⟩ := hc.1
    have hz : z ∈ ns := (hcl _ hcmem).2
    rcases List.mem_cons.mp hx with hxy | hxrest
    · rw [hxy, hyhd]; exact hmem
    · exact walk_mem_nodes hcl (z :: p) hc.2 z rfl hz x hxrest

lemma dijkstra_eq_bf {E : List (WEdge V)} {ns : List V} {s : V}
    (hWf : (E.map (fun e => (e.1, e.2.1))).Nodup)
    (hcl : ∀ e ∈ E, e.1 ∈ ns ∧ e.2.1 ∈ ns)
    (hnn : ∀ e ∈ E, 0 ≤ e.2.2)
    (hs : s ∈ ns) (v : V) :
    dijkstraLengths E s v = bfIter E s (ns.length - 1) v := by
  apply le_antisymm
  · -- min simple-path cost is at most the Bellman-Ford estimate
    rcases bfIter_exists_walk hWf (ns.length - 1) v with htop | ⟨p, hp, _, hpcost⟩
    · rw [htop]; exact le_top
    · obtain ⟨q, hq, hqn, _, hqcost⟩ := walk_to_simple p.length p (le_refl _) hp
      have hqmem : q ∈ simplePaths E s v := mem_simplePaths_complete hq hqn
      cases hm : (simplePaths E s v).argmin (walkCost E) with
      | none =>
        rw [List.argmin_eq_none] at hm
        rw [hm] at hqmem
        cases hqmem
      | some m =>
        have hmle : walkCost E m ≤ walkCost E q :=
          List.le_of_mem_argmin hqmem hm
        have : dijkstraLengths E s v = walkCost E m := by
          rw [dijkstraLengths, hm]
        rw [this]
        exact hmle.trans ((hqcost hnn).trans hpcost)
  · -- the Bellman-Ford estimate is at most any simple-path cost
    cases hm : (simplePaths E s v).argmin (walkCost E) with
    | none =>
      have : dijkstraLengths E s v = ⊤ := by rw [dijkstraLengths, hm]
      rw [this]; exact le_top
    | some m =>
      have hmmem : m ∈ simplePaths E s v := List.argmin_mem hm
      obtain ⟨hw, hn⟩ := mem_simplePaths_sound hmmem
      have hmnodes : ∀ x ∈ m, x ∈ ns :=
        walk_mem_nodes hcl m hw.2.2 s hw.1 hs
      have hmlen : m.length ≤ ns.length := nodup_subset_length hn hmnodes
      have hnsne : 1 ≤ ns.length := by
        cases hns : ns with
        | nil => rw [hns] at hs; cases hs
        | cons a l => simp
      have hmlen2 : m.length ≤ (ns.length - 1) + 1 := by omega
      have := bfIter_le_walkCost (ns.length - 1) m v hw hmlen2
      have hdij : dijkstraLengths E s v = walkCost E m := by
        rw [dijkstraLengths, hm]
      rw [hdij]
      exact this

end DigraphLemmas


/-- C8: for every graph with non-negative edge weights (a directed graph:
distinct ordered edge pairs, endpoints among the nodes) and every valid
source, the Dijkstra-based and the Bellman-Ford-based computations of
trial1.py return equal per-node distance mappings. -/
theorem C8_dijkstra_eq_bellman_ford {V : Type} [DecidableEq V]
    (G : WGraph V) (s : V)
    (hWf : (G.edges.map (fun e => (e.1, e.2.1))).Nodup)
    (hcl : ∀ e ∈ G.edges, e.1 ∈ G.nodes ∧ e.2.1 ∈ G.nodes)
    (hnn : ∀ e ∈ G.edges, 0 ≤ e.2.2)
    (hs : s ∈ G.nodes) (v : V) :
    dijkstra G s v = bellman_ford G s v := by
  have hWf2 : ((wtriples G).map (fun e => (e.1, e.2.1))).Nodup := by
    rw [wtriples, List.map_map]
    exact hWf
  have hcl2 : ∀ e ∈ wtriples G, e.1 ∈ G.nodes ∧ e.2.1 ∈ G.nodes := by
    intro e he
    obtain ⟨a, ha, hae⟩ := List.mem_map.mp he
    rw [← hae]
    exact hcl a ha
  have hnn2 : ∀ e ∈ wtriples G, 0 ≤ e.2.2 := by
    intro e he
    obtain ⟨a, ha, hae⟩ := List.mem_map.mp he
    rw [← hae]
    show (0 : WithTop ℚ) ≤ (a.2.2 : ℚ)
    exact_mod_cast hnn a ha
  exact dijkstra_eq_bf hWf2 hcl2 hnn2 hs v

/-- Witness for C8 at a concrete graph: trial1.py's topology with fixed
weights, source A, node E. -/
theorem C8_dijkstra_eq_bellman_ford_witness :
    dijkstra trialGraph "A" "E" = bellman_ford trialGraph "A" "E" :=
  C8_dijkstra_eq_bellman_ford trialGraph "A" (by decide) (by decide)
    (by decide) (by decide) "E"

/-- C9: for a source that is not a node of the graph, the Run Simulation
handler of trial1.py surfaces a node-not-found error message, runs no
algorithm (the result carries no distances), and leaves the graph
unchanged. -/
theorem C9_run_simulation_invalid_source {V : Type} [DecidableEq V]
    (algo : Algo) (source : V) (G : WGraph V) (h : source ∉ G.nodes) :
    (runSimulation algo source G).1 =
      Except.error "Source node not found in the graph. Try A, B, C, D, or E." ∧
    (runSimulation algo source G).2 = G := by
  rw [runSimulation.eq_def, if_neg h]
  exact ⟨rfl, rfl⟩

/-- Witness for C9: the unknown source Z on the concrete trial graph. -/
theorem C9_run_simulation_invalid_source_witness :
    (runSimulation Algo.dijkstraAlgo "Z" trialGraph).1 =
      Except.error "Source node not found in the graph. Try A, B, C, D, or E." ∧
    (runSimulation Algo.dijkstraAlgo "Z" trialGraph).2 = trialGraph :=
  C9_run_simulation_invalid_source Algo.dijkstraAlgo "Z" trialGraph (by decide)

section MainPyLemmas

variable {V : Type} [DecidableEq V]

lemma updEdge_base (path : List V) (f : ℚ) (u v : V) (d : EdgeData) :
    (updEdge path f u v d).base_weight = d.base_weight := by
  cases hd : d.isOpen <;> simp [updEdge, hd]

lemma updEdge_isOpen (path : List V) (f : ℚ) (u v : V) (d : EdgeData) :
    (updEdge path f u v d).isOpen = d.isOpen := by
  cases hd : d.isOpen <;> simp [updEdge, hd]

lemma update_traffic_getElem {G : TGraph V} {path : List V} {fl : V → V → ℚ}
    {i : ℕ} {u v : V} {d : EdgeData} (h : G.edges[i]? = some (u, v, d)) :
    (update_traffic G path fl).edges[i]? =
      some (u, v, updEdge path (fl u v) u v d) := by
  show (G.edges.map _)[i]? = _
  rw [List.getElem?_map, h]
  rfl

/-- C1: one update_traffic call sets each open edge's congestion_level to
min(old + 0.05, 1) when its ordered pair is a consecutive pair of the
traveled path and to max(old * 0.95, 0) otherwise, and its effective weight
becomes round(base_weight * f * (1 + new congestion), 2) for some
fluctuation f in [0.9, 1.2]. -/
theorem C1_update_traffic_open_edge (G : TGraph V) (path : List V)
    (fl : V → V → ℚ) (hfl : ∀ u v, 0.9 ≤ fl u v ∧ fl u v ≤ 1.2)
    (i : ℕ) (u v : V) (d : EdgeData)
    (h : G.edges[i]? = some (u, v, d)) (hopen : d.isOpen = true) :
    ∃ d2, (update_traffic G path fl).edges[i]? = some (u, v, d2) ∧
      d2.congestion_level =
        (if (u, v) ∈ consecPairs path then min (d.congestion_level + 0.05) 1
         else max (d.congestion_level * 0.95) 0) ∧
      ∃ f, 0.9 ≤ f ∧ f ≤ 1.2 ∧
        d2.weight =
          ((round2 (d.base_weight * f * (1 + d2.congestion_level)) : ℚ) : WithTop ℚ) := by
  refine ⟨updEdge path (fl u v) u v d, update_traffic_getElem h, ?_,
    fl u v, (hfl u v).1, (hfl u v).2, ?_⟩
  · simp [updEdge, hopen]
  · simp [updEdge, hopen]

/-- Witness for C1 on the concrete main.py graph, traveled path A-B,
fluctuation 1. -/
theorem C1_update_traffic_open_edge_witness :
    ∃ d2, (update_traffic mainGraph ["A", "B"] (fun _ _ => 1)).edges[0]? =
        some ("A", "B", d2) ∧
      d2.congestion_level =
        (if (("A" : String), ("B" : String)) ∈ consecPairs ["A", "B"] then
          min ((initEdge 10).congestion_level + 0.05) 1
         else max ((initEdge 10).congestion_level * 0.95) 0) ∧
      ∃ f, 0.9 ≤ f ∧ f ≤ 1.2 ∧
        d2.weight =
          ((round2 ((initEdge 10).base_weight * f * (1 + d2.congestion_level)) : ℚ) : WithTop ℚ) :=
  C1_update_traffic_open_edge mainGraph ["A", "B"] (fun _ _ => 1)
    (fun _ _ => by norm_num) 0 "A" "B" (initEdge 10) rfl rfl

/-- C5: update_traffic sets every closed edge's effective weight to inf and
leaves its congestion_level unchanged, for any traveled path and congestion
value. -/
theorem C5_closed_edge_weight_inf (G : TGraph V) (path : List V)
    (fl : V → V → ℚ) (i : ℕ) (u v : V) (d : EdgeData)
    (h : G.edges[i]? = some (u, v, d)) (hclosed : d.isOpen = false) :
    ∃ d2, (update_traffic G path fl).edges[i]? = some (u, v, d2) ∧
      d2.weight = ⊤ ∧ d2.congestion_level = d.congestion_level := by
  refine ⟨updEdge path (fl u v) u v d, update_traffic_getElem h, ?_, ?_⟩
  · simp [updEdge, hclosed]
  · simp [updEdge, hclosed]

/-- Witness for C5 on the concrete closed-edge graph. -/
theorem C5_closed_edge_weight_inf_witness :
    ∃ d2, (update_traffic closedGraph ["A", "B"] (fun _ _ => 1)).edges[0]? =
        some ("A", "B", d2) ∧
      d2.weight = ⊤ ∧
      d2.congestion_level =
        (EdgeData.mk 10 ⊤ false 0).congestion_level :=
  C5_closed_edge_weight_inf closedGraph ["A", "B"] (fun _ _ => 1) 0 "A" "B"
    (EdgeData.mk 10 ⊤ false 0) rfl rfl

/-- C10: update_traffic changes only congestion levels and effective
weights: the node list, the edge pairs, every base_weight and every open
flag are unchanged. -/
theorem C10_update_traffic_frame (G : TGraph V) (path : List V)
    (fl : V → V → ℚ) :
    (update_traffic G path fl).nodes = G.nodes ∧
    (update_traffic G path fl).edges.map (fun e => (e.1, e.2.1)) =
      G.edges.map (fun e => (e.1, e.2.1)) ∧
    (update_traffic G path fl).edges.map (fun e => e.2.2.base_weight) =
      G.edges.map (fun e => e.2.2.base_weight) ∧
    (update_traffic G path fl).edges.map (fun e => e.2.2.isOpen) =
      G.edges.map (fun e => e.2.2.isOpen) := by
  refine ⟨rfl, ?_, ?_, ?_⟩
  · show (G.edges.map _).map _ = _
    rw [List.map_map]
    rfl
  · show (G.edges.map _).map _ = _
    rw [List.map_map]
    apply List.map_congr_left
    intro e _
    exact updEdge_base path (fl e.1 e.2.1) e.1 e.2.1 e.2.2
  · show (G.edges.map _).map _ = _
    rw [List.map_map]
    apply List.map_congr_left
    intro e _
    exact updEdge_isOpen path (fl e.1 e.2.1) e.1 e.2.1 e.2.2

end MainPyLemmas

section CongestionInvariant

variable {V : Type} [DecidableEq V]

/-- All congestion levels of the graph lie in [0, 1]. -/
def InRange (G : TGraph V) : Prop :=
  ∀ e ∈ G.edges, 0 ≤ e.2.2.congestion_level ∧ e.2.2.congestion_level ≤ 1

lemma updEdge_congestion_mem01 (path : List V) (f : ℚ) (u v : V)
    {d : EdgeData} (h0 : 0 ≤ d.congestion_level) (h1 : d.congestion_level ≤ 1) :
    0 ≤ (updEdge path f u v d).congestion_level ∧
      (updEdge path f u v d).congestion_level ≤ 1 := by
  cases hd : d.isOpen with
  | false => simp only [updEdge, hd]; exact ⟨h0, h1⟩
  | true =>
    by_cases hmem : (u, v) ∈ consecPairs path
    · simp only [updEdge, hd, if_true, hmem]
      constructor
      · apply le_min
        · linarith
        · norm_num
      · exact min_le_right _ _
    · simp only [updEdge, hd, if_true, hmem, if_false]
      constructor
      · exact le_max_right _ _
      · apply max_le
        · nlinarith
        · norm_num

lemma trafficStep_preserves (G : TGraph V)
    (st : List V × (V → V → Bool) × (V → V → ℚ)) (h : InRange G) :
    InRange (trafficStep G st) := by
  intro e he
  obtain ⟨a, ha, hae⟩ := List.mem_map.mp he
  obtain ⟨b, hb, hba⟩ := List.mem_map.mp ha
  have hbr := h b hb
  rw [← hae, ← hba]
  exact updEdge_congestion_mem01 _ _ _ _ hbr.1 hbr.2

lemma runSteps_preserves (G : TGraph V)
    (steps : List (List V × (V → V → Bool) × (V → V → ℚ))) (h : InRange G) :
    InRange (runSteps G steps) := by
  induction steps generalizing G with
  | nil => exact h
  | cons st steps ih => exact ih (trafficStep G st) (trafficStep_preserves G st h)

/-- C2: starting from all-zero congestion, after any finite number of
interaction steps (arbitrary open/closed settings, traveled paths and
fluctuation draws) every edge's congestion_level stays within [0, 1]. -/
theorem C2_congestion_invariant (G : TGraph V)
    (hinit : ∀ e ∈ G.edges, e.2.2.congestion_level = 0)
    (steps : List (List V × (V → V → Bool) × (V → V → ℚ))) :
    ∀ e ∈ (runSteps G steps).edges,
      0 ≤ e.2.2.congestion_level ∧ e.2.2.congestion_level ≤ 1 := by
  apply runSteps_preserves
  intro e he
  rw [hinit e he]
  norm_num

lemma headI_mem_of_ne_nil {α : Type} [Inhabited α] {l : List α} (h : l ≠ []) :
    l.headI ∈ l := by
  cases l with
  | nil => exact absurd rfl h
  | cons a t => exact List.mem_cons_self a t

/-- Witness for C2: the first edge of the concrete main.py graph after two
interaction steps. -/
theorem C2_congestion_invariant_witness :
    0 ≤ ((runSteps mainGraph
        [(["A", "B"], fun _ _ => true, fun _ _ => 1),
         ([], fun _ _ => false, fun _ _ => (11 : ℚ) / 10)]).edges.headI).2.2.congestion_level ∧
    ((runSteps mainGraph
        [(["A", "B"], fun _ _ => true, fun _ _ => 1),
         ([], fun _ _ => false, fun _ _ => (11 : ℚ) / 10)]).edges.headI).2.2.congestion_level ≤ 1 :=
  C2_congestion_invariant mainGraph (by decide)
    [(["A", "B"], fun _ _ => true, fun _ _ => 1),
     ([], fun _ _ => false, fun _ _ => (11 : ℚ) / 10)]
    _ (headI_mem_of_ne_nil (by decide))

end CongestionInvariant

section EmptyPathDecay

variable {V : Type} [DecidableEq V]

lemma iterEmpty_formula {G : TGraph V} {fls : ℕ → V → V → ℚ} {i : ℕ}
    {u v : V} {d : EdgeData} (h : G.edges[i]? = some (u, v, d))
    (hopen : d.isOpen = true) (h0 : 0 ≤ d.congestion_level) :
    ∀ k, ∃ dk, (iterEmpty G fls k).edges[i]? = some (u, v, dk) ∧
      dk.isOpen = true ∧
      dk.congestion_level = d.congestion_level * 0.95 ^ k := by
  intro k
  induction k with
  | zero => exact ⟨d, h, hopen, by rw [pow_zero, mul_one]⟩
  | succ k ih =>
    obtain ⟨dk, hk, hkopen, hkcong⟩ := ih
    refine ⟨updEdge [] (fls k u v) u v dk, update_traffic_getElem hk, ?_, ?_⟩
    · rw [updEdge_isOpen]; exact hkopen
    · have hnotmem : ((u, v) : V × V) ∉ consecPairs ([] : List V) := by
        simp [consecPairs]
      have hck : 0 ≤ dk.congestion_level := by
        rw [hkcong]
        apply mul_nonneg h0
        positivity
      simp only [updEdge, hkopen, if_true, hnotmem, if_false]
      show max (dk.congestion_level * 0.95) 0 = d.congestion_level * 0.95 ^ (k + 1)
      rw [max_eq_left (by positivity)]
      rw [hkcong, pow_succ, mul_assoc]

/-- C6: update_traffic is callable with the empty traveled path, under which
every open edge decays: over repeated empty-path calls the congestion level
is non-increasing, never below 0, and falls below any positive bound
eventually; the Reset Vehicle handler sets the cursor to 0 and performs
exactly one such decay pass. -/
theorem C6_empty_path_decay (G : TGraph V) (fls : ℕ → V → V → ℚ)
    (i : ℕ) (u v : V) (d : EdgeData) (h : G.edges[i]? = some (u, v, d))
    (hopen : d.isOpen = true) (h0 : 0 ≤ d.congestion_level) :
    (∀ k, congAt (iterEmpty G fls (k + 1)) i ≤ congAt (iterEmpty G fls k) i) ∧
    (∀ k, 0 ≤ congAt (iterEmpty G fls k) i) ∧
    (∀ ε : ℚ, 0 < ε → ∃ N, ∀ k, N ≤ k → congAt (iterEmpty G fls k) i < ε) ∧
    (∀ fl : V → V → ℚ, resetVehicle G fl = (0, update_traffic G [] fl)) := by
  have hfor : ∀ k, congAt (iterEmpty G fls k) i =
      d.congestion_level * 0.95 ^ k := by
    intro k
    obtain ⟨dk, hk, _, hkcong⟩ := iterEmpty_formula h hopen h0 k
    rw [congAt, hk]
    exact hkcong
  refine ⟨?_, ?_, ?_, fun fl => rfl⟩
  · intro k
    rw [hfor k, hfor (k + 1)]
    apply mul_le_mul_of_nonneg_left _ h0
    rw [pow_succ]
    nlinarith [pow_nonneg (by norm_num : (0 : ℚ) ≤ 0.95) k]
  · intro k
    rw [hfor k]
    positivity
  · intro ε hε
    rcases eq_or_lt_of_le h0 with hc0 | hc0
    · refine ⟨0, fun k _ => ?_⟩
      rw [hfor k, ← hc0, zero_mul]
      exact hε
    · obtain ⟨N, hN⟩ := exists_pow_lt_of_lt_one
        (div_pos hε hc0) (by norm_num : (0.95 : ℚ) < 1)
      refine ⟨N, fun k hk => ?_⟩
      rw [hfor k]
      have hpow : (0.95 : ℚ) ^ k ≤ 0.95 ^ N :=
        pow_le_pow_of_le_one (by norm_num) (by norm_num) hk
      have h1 : d.congestion_level * 0.95 ^ k ≤ d.congestion_level * 0.95 ^ N :=
        mul_le_mul_of_nonneg_left hpow h0
      have h2 : d.congestion_level * 0.95 ^ N < d.congestion_level * (ε / d.congestion_level) :=
        mul_lt_mul_of_pos_left hN hc0
      have h3 : d.congestion_level * (ε / d.congestion_level) = ε := by
        rw [mul_comm]
        exact div_mul_cancel₀ ε (ne_of_gt hc0)
      linarith

/-- Witness for C6 on the concrete main.py graph, edge A-B, two decay
steps, plus the reset handler. -/
theorem C6_empty_path_decay_witness :
    congAt (iterEmpty mainGraph (fun _ _ _ => 1) 3) 0 ≤
      congAt (iterEmpty mainGraph (fun _ _ _ => 1) 2) 0 ∧
    (0 : ℚ) ≤ congAt (iterEmpty mainGraph (fun _ _ _ => 1) 2) 0 ∧
    resetVehicle mainGraph (fun _ _ => 1) =
      (0, update_traffic mainGraph [] (fun _ _ => 1)) := by
  obtain ⟨h1, h2, _, h4⟩ := C6_empty_path_decay mainGraph (fun _ _ _ => 1)
    0 "A" "B" (initEdge 10) rfl rfl (le_refl 0)
  exact ⟨h1 2, h2 2, h4 _⟩

end EmptyPathDecay

section MoveVehicleFrame

variable {V : Type} [DecidableEq V]

/-- C7: the Move Vehicle handler is a no-op (cursor unchanged, no traffic
update) when the path is empty or the cursor is at the last index; when the
path is non-empty and the cursor is before the last index, it increments the
cursor and runs one update_traffic with the full current path. -/
theorem C7_move_vehicle (cursor : ℕ) (path : List V) (G : TGraph V)
    (fl : V → V → ℚ) :
    ((path = [] ∨ cursor = path.length - 1) →
      moveVehicle cursor path G fl = (cursor, G)) ∧
    (path ≠ [] → cursor < path.length - 1 →
      moveVehicle cursor path G fl = (cursor + 1, update_traffic G path fl)) := by
  constructor
  · intro hcase
    rw [moveVehicle, if_neg]
    rintro ⟨hne, hlt⟩
    rcases hcase with hnil | hlast
    · exact hne hnil
    · rw [hlast] at hlt
      exact lt_irrefl _ hlt
  · intro hne hlt
    rw [moveVehicle, if_pos ⟨hne, hlt⟩]

/-- Witness for C7: on a two-node path, the handler is a no-op at cursor 1
and advances with a traffic update at cursor 0. -/
theorem C7_move_vehicle_witness :
    moveVehicle 1 ["A", "B"] mainGraph (fun _ _ => 1) = (1, mainGraph) ∧
    moveVehicle 0 ["A", "B"] mainGraph (fun _ _ => 1) =
      (1, update_traffic mainGraph ["A", "B"] (fun _ _ => 1)) :=
  ⟨(C7_move_vehicle 1 ["A", "B"] mainGraph (fun _ _ => 1)).1 (Or.inr rfl),
   (C7_move_vehicle 0 ["A", "B"] mainGraph (fun _ _ => 1)).2
     (by decide) (by decide)⟩

end MoveVehicleFrame

section PlannerTheorems

variable {V : Type} [DecidableEq V]

lemma triples_setBase (G : TGraph V) (b : V → V → ℚ) :
    triples (setBaseWeights G b) = triples G := by
  show (G.edges.map _).map _ = _
  rw [List.map_map]
  rfl

/-- C3: when the target is reachable, get_shortest_path returns a simple
path whose reported cost is the sum of the effective weights of its
consecutive edges, no simple path from source to target costs strictly
less, and the result depends only on effective weights, never on
base_weight. -/
theorem C3_shortest_path_optimal (G : TGraph V) (s t : V)
    (hnn : ∀ e ∈ triples G, 0 ≤ e.2.2)
    (hreach : ∃ p, isWalk (triples G) s t p) :
    isWalk (triples G) s t (get_shortest_path G s t).1 ∧
    (get_shortest_path G s t).1.Nodup ∧
    (get_shortest_path G s t).2 = walkCost (triples G) (get_shortest_path G s t).1 ∧
    (∀ q, isWalk (triples G) s t q → q.Nodup →
      (get_shortest_path G s t).2 ≤ walkCost (triples G) q) ∧
    (∀ b, get_shortest_path (setBaseWeights G b) s t = get_shortest_path G s t) := by
  obtain ⟨p0, hp0⟩ := hreach
  obtain ⟨q0, hq0, hq0n, _, _⟩ := walk_to_simple p0.length p0 (le_refl _) hp0
  have hq0mem := mem_simplePaths_complete hq0 hq0n
  cases hm : (simplePaths (triples G) s t).argmin (walkCost (triples G)) with
  | none =>
    rw [List.argmin_eq_none] at hm
    rw [hm] at hq0mem
    cases hq0mem
  | some m =>
    have hget : get_shortest_path G s t = (m, walkCost (triples G) m) := by
      rw [get_shortest_path, shortestPathCore, hm]
    obtain ⟨hmw, hmn⟩ := mem_simplePaths_sound (List.argmin_mem hm)
    rw [hget]
    refine ⟨hmw, hmn, rfl, ?_, ?_⟩
    · intro q hq hqn
      exact List.le_of_mem_argmin (mem_simplePaths_complete hq hqn) hm
    · intro b
      show shortestPathCore (triples (setBaseWeights G b)) s t = _
      rw [triples_setBase]
      exact hget

/-- Witness for C3 on the concrete main.py graph, source A, target E,
cross-checked against the simple path A-C-E and a base-weight rewrite. -/
theorem C3_shortest_path_optimal_witness :
    isWalk (triples mainGraph) "A" "E" (get_shortest_path mainGraph "A" "E").1 ∧
    (get_shortest_path mainGraph "A" "E").2 ≤
      walkCost (triples mainGraph) ["A", "C", "E"] ∧
    get_shortest_path (setBaseWeights mainGraph (fun _ _ => 42)) "A" "E" =
      get_shortest_path mainGraph "A" "E" := by
  obtain ⟨h1, _, _, h4, h5⟩ := C3_shortest_path_optimal mainGraph "A" "E"
    (by decide) ⟨["A", "C", "E"], by decide⟩
  exact ⟨h1, h4 _ (by decide) (by decide), h5 _⟩

/-- C4 as amended: get_shortest_path returns the ([], inf) sentinel exactly
when the target is unreachable from the source in the whole directed graph,
closed edges included; the sentinel is an ordinary return value. -/
theorem C4_sentinel_iff_unreachable (G : TGraph V) (s t : V)
    (hs : s ∈ G.nodes) (ht : t ∈ G.nodes) :
    get_shortest_path G s t = ([], ⊤) ↔
      ¬ ∃ p, isWalk (triples G) s t p := by
  cases hm : (simplePaths (triples G) s t).argmin (walkCost (triples G)) with
  | none =>
    constructor
    · intro _
      rw [← simplePaths_eq_nil_iff]
      exact List.argmin_eq_none.mp hm
    · intro _
      rw [get_shortest_path, shortestPathCore, hm]
  | some m =>
    obtain ⟨hmw, hmn⟩ := mem_simplePaths_sound (List.argmin_mem hm)
    constructor
    · intro heq
      rw [get_shortest_path, shortestPathCore, hm] at heq
      have hmnil : m = [] := congrArg Prod.fst heq
      rw [hmnil] at hmw
      cases hmw.1
    · intro hno
      exact absurd ⟨m, hmw⟩ hno

/-- Witness for C4 as amended, on the concrete main.py graph. -/
theorem C4_sentinel_iff_unreachable_witness :
    get_shortest_path mainGraph "A" "E" = ([], ⊤) ↔
      ¬ ∃ p, isWalk (triples mainGraph) "A" "E" p :=
  C4_sentinel_iff_unreachable mainGraph "A" "E" (by decide) (by decide)

lemma no_walk_empty_ne {s t : V} (hst : s ≠ t) :
    ¬ ∃ p, isWalk ([] : List (WEdge V)) s t p := by
  rintro ⟨p, hh, hl, hc⟩
  cases p with
  | nil => cases hh
  | cons x q =>
    have hx : x = s := by injection hh
    cases q with
    | nil =>
      have hxt : x = t := by simpa using hl
      rw [hx] at hxt
      exact hst hxt
    | cons y q =>
      rw [List.chain'_cons] at hc
      obtain ⟨c, hmem⟩ := hc.1
      cases hmem

/-- Counterexample to C4 as stated: on the graph whose single edge A-B is
closed, B is unreachable from A in the open-edge subgraph, yet
get_shortest_path returns the path through the closed edge (with infinite
cost), not the ([], inf) sentinel. -/
theorem C4_open_subgraph_counterexample :
    ¬ (get_shortest_path closedGraph "A" "B" = ([], ⊤) ↔
       ¬ ∃ p, isWalk (openTriples closedGraph) "A" "B" p) := by
  intro hiff
  have hopentriv : openTriples closedGraph = ([] : List (WEdge String)) := rfl
  have hnowalk : ¬ ∃ p, isWalk (openTriples closedGraph) "A" "B" p := by
    rw [hopentriv]
    exact no_walk_empty_ne (by decide)
  have hne : get_shortest_path closedGraph "A" "B" ≠ ([], ⊤) := by decide
  exact hne (hiff.mpr hnowalk)

end PlannerTheorems
